import Mathlib

/-!
Verification of the core subsystems of the sitecore-portal browser extension:
the storage consistency manager (optimistic locking, versioned atomic updates,
backup/rollback), the per-key advisory lock system, the request lifecycle
tracker, the request deduplicator, and the organization merge layer.

Each JavaScript manager is shallowly embedded as pure Lean functions over
explicit state records; `Map` objects become insertion-ordered association
lists, timers become explicit events, and `Date.now()` becomes a `Nat`
parameter threaded by the caller.
-/

/-! ## Generic insertion-ordered association lists (JS `Map`) -/

/-- Lookup in an insertion-ordered association list (JS `Map.get`). -/
def lookup {κ β : Type} [DecidableEq κ] : List (κ × β) → κ → Option β
  | [], _ => none
  | (k2, v) :: rest, k => if k2 = k then some v else lookup rest k

/-- Insert or overwrite in an insertion-ordered association list (JS `Map.set`);
an existing key keeps its original position, a new key is appended. -/
def mapSet {κ β : Type} [DecidableEq κ] : List (κ × β) → κ → β → List (κ × β)
  | [], k, v => [(k, v)]
  | (k2, v2) :: rest, k, v =>
      if k2 = k then (k, v) :: rest else (k2, v2) :: mapSet rest k v

/-- Remove a key from an association list (JS `Map.delete`). -/
def mapErase {κ β : Type} [DecidableEq κ] : List (κ × β) → κ → List (κ × β)
  | [], _ => []
  | (k2, v) :: rest, k => if k2 = k then rest else (k2, v) :: mapErase rest k

/-! ## Storage Consistency Manager (storageConsistencyManager.js)

State for a single storage key: the in-memory `versions` entry, the persisted
record in `chrome.storage.local`, and the in-memory backup ring
(`window._storageBackups`). The store itself is reliable, so the post-write
verification read always observes the value just written. -/

/-- A persisted record: the payload plus the `_version`, `_lastModified` and
`_transaction` metadata stamped by `atomicUpdate`. -/
structure StoredRecord (α : Type) where
  payload : α
  version : Nat
  lastModified : Nat
  transaction : Nat
deriving Repr, DecidableEq

/-- An in-memory backup: the version *before* the update that triggered it,
a deep copy of the data, and its creation time (`createBackup`). -/
structure Backup (α : Type) where
  version : Nat
  data : α
  createdAt : Nat
deriving Repr, DecidableEq

/-- Per-key state of the storage consistency manager. -/
structure SCMState (α : Type) where
  memVersion : Option Nat
  stored : Option (StoredRecord α)
  backups : List (Backup α)
deriving Repr, DecidableEq

/-- Initial state: no in-memory version, no persisted record, no backups. -/
def scmInit {α : Type} : SCMState α := ⟨none, none, []⟩

/-- Backup retention count (`config.backupRetention`). -/
def backupRetention : Nat := 5

/-- Stable insertion into a list sorted by `createdAt` descending, mirroring
the stable `sort((a, b) => b.createdAt - a.createdAt)` of `storeBackup`. -/
def insertByCreatedAtDesc {α : Type} (b : Backup α) : List (Backup α) → List (Backup α)
  | [] => [b]
  | c :: cs =>
      if c.createdAt ≤ b.createdAt then b :: c :: cs
      else c :: insertByCreatedAtDesc b cs

/-- Stable sort by `createdAt` descending. -/
def sortByCreatedAtDesc {α : Type} : List (Backup α) → List (Backup α)
  | [] => []
  | b :: bs => insertByCreatedAtDesc b (sortByCreatedAtDesc bs)

/-- `storeBackup`: push the new backup, sort newest-first, keep only the
`backupRetention` most recent. -/
def storeBackup {α : Type} (backups : List (Backup α)) (b : Backup α) : List (Backup α) :=
  (sortByCreatedAtDesc (backups ++ [b])).take backupRetention

/-- `getNextVersion`: increment of the in-memory version (0 when absent). -/
def getNextVersion (memVersion : Option Nat) : Nat :=
  memVersion.getD 0 + 1

/-- Outcome of one pass through the body of `atomicUpdate`. -/
inductive AttemptResult (α : Type) where
  | ok (version : Nat) (data : α)
  | conflictError (expected found : Nat)
  | validationError
deriving Repr, DecidableEq

/-- The body of `atomicUpdate` after the conflict check has passed:
create a backup of the current record, apply the update function to a copy
of the current payload, validate, stamp the next version and metadata,
write, and verify the write (which succeeds against a reliable store). -/
def atomicAttemptBody {α : Type} (currentPayload : α) (currentVersion : Nat)
    (updateFunction : α → α) (validateFunction : Option (α → α → Bool))
    (now transactionId : Nat) (st : SCMState α) : AttemptResult α × SCMState α :=
  let backup : Backup α := ⟨currentVersion, currentPayload, now⟩
  let backups2 := storeBackup st.backups backup
  let updatedData := updateFunction currentPayload
  let valid := match validateFunction with
    | some v => v updatedData currentPayload
    | none => true
  if valid then
    let nextVersion := getNextVersion st.memVersion
    let record : StoredRecord α := ⟨updatedData, nextVersion, now, transactionId⟩
    (AttemptResult.ok nextVersion updatedData,
      { memVersion := some nextVersion, stored := some record, backups := backups2 })
  else
    (AttemptResult.validationError, { st with backups := backups2 })

/-- One pass through the body of `atomicUpdate`: read the current record
(absence is version 0 with the empty payload), compare the in-memory
expected version with the just-read persisted version, raise a conflict on
mismatch, otherwise run the update body. -/
def atomicAttempt {α : Type} (emptyPayload : α) (updateFunction : α → α)
    (validateFunction : Option (α → α → Bool)) (now transactionId : Nat)
    (st : SCMState α) : AttemptResult α × SCMState α :=
  let currentPayload := match st.stored with
    | some r => r.payload
    | none => emptyPayload
  let currentVersion := match st.stored with
    | some r => r.version
    | none => 0
  match st.memVersion with
  | some expectedVersion =>
      if expectedVersion ≠ currentVersion then
        (AttemptResult.conflictError expectedVersion currentVersion, st)
      else
        atomicAttemptBody currentPayload currentVersion updateFunction
          validateFunction now transactionId st
  | none =>
      atomicAttemptBody currentPayload currentVersion updateFunction
        validateFunction now transactionId st

/-- Version field of the persisted record, `0` when absent. -/
def persistedVersion {α : Type} (st : SCMState α) : Nat :=
  match st.stored with
  | some r => r.version
  | none => 0

/-- Run a sequence of `atomicUpdate` calls (each given by its update function
and optional validator) against one key, threading the clock/transaction
counter; returns the final state and the per-call results. -/
def runUpdates {α : Type} (emptyPayload : α) :
    Nat → SCMState α → List ((α → α) × Option (α → α → Bool)) →
    SCMState α × List (AttemptResult α)
  | _, st, [] => (st, [])
  | n, st, step :: rest =>
      let out := atomicAttempt emptyPayload step.1 step.2 n n st
      let tail := runUpdates emptyPayload (n + 1) out.2 rest
      (tail.1, out.1 :: tail.2)

/-- Versions produced by the successful calls of a result list. -/
def okVersions {α : Type} : List (AttemptResult α) → List Nat
  | [] => []
  | AttemptResult.ok v _ :: rest => v :: okVersions rest
  | AttemptResult.conflictError _ _ :: rest => okVersions rest
  | AttemptResult.validationError :: rest => okVersions rest

/-- The in-memory version tracker agrees with the persisted record
(the invariant maintained by sequential `atomicUpdate` runs). -/
def Consistent {α : Type} (st : SCMState α) : Prop :=
  st.memVersion = st.stored.map StoredRecord.version

/-- `rollback`: find the most recent backup whose recorded pre-update version
equals the target, and replay its snapshot through a fresh `atomicAttempt`
(an always-valid versioned write); with no such backup it fails without
touching any state. -/
def rollback {α : Type} (emptyPayload : α) (st : SCMState α) (targetVersion : Nat)
    (now transactionId : Nat) : Except String (AttemptResult α × SCMState α) :=
  match st.backups.find? (fun b => b.version == targetVersion) with
  | none => Except.error "No backup found"
  | some targetBackup =>
      Except.ok (atomicAttempt emptyPayload (fun _ => targetBackup.data)
        (some (fun _ _ => true)) now transactionId st)

/-! ## The retry loop of `atomicUpdate`

The while loop of `atomicUpdate` abstracted over the outcome of each pass
through its body (each pass acquires the per-key lock, works, and releases
the lock on every exit path). `attempts i` is the outcome the body would
produce on iteration `i` under the ambient interleaving; the loop itself
decides retrying, exponential backoff, and error propagation. -/

/-- Error classes thrown inside the body of `atomicUpdate`: an optimistic
lock version conflict (`StorageConflictError`), a validation failure
(`ValidationError`), or a failed post-write verification. -/
inductive AtomicErrorKind where
  | conflict
  | validation
  | writeVerification
deriving Repr, DecidableEq

/-- Outcome of one pass through the body of the `atomicUpdate` loop. -/
inductive AttemptOutcome (α : Type) where
  | success (result : α)
  | failure (e : AtomicErrorKind)
deriving Repr, DecidableEq

/-- Observable events of the retry loop: lock acquisition and release per
iteration, and the backoff waits between iterations. -/
inductive LoopEvent where
  | acquired (attempt : Nat)
  | released (attempt : Nat)
  | waited (delayMs : Nat)
deriving Repr, DecidableEq

/-- Final outcome of the whole `atomicUpdate` call plus its event trace. -/
structure LoopResult (α : Type) where
  result : Except AtomicErrorKind α
  events : List LoopEvent
deriving Repr

/-- The `while (retryCount <= maxRetries)` loop of `atomicUpdate`. Each
iteration acquires and later releases the lock; on a conflict the retry
counter is incremented, a delay of `retryDelayBase * 2 ^ (retryCount - 1)`
is computed, and the loop waits and restarts while `retryCount` has not
passed `maxRetries`; any other error, or an exhausted conflict, is thrown.
The fuel argument bounds the recursion and equals the remaining permitted
iterations. -/
def atomicRetryAux {α : Type} (attempts : Nat → AttemptOutcome α)
    (retryDelayBase maxRetries : Nat) :
    Nat → Nat → Nat → List LoopEvent → LoopResult α
  | 0, _, _, acc => ⟨Except.error AtomicErrorKind.conflict, acc.reverse⟩
  | fuel + 1, attemptIdx, retryCount, acc =>
      let acc2 := LoopEvent.released attemptIdx :: LoopEvent.acquired attemptIdx :: acc
      match attempts attemptIdx with
      | AttemptOutcome.success r => ⟨Except.ok r, acc2.reverse⟩
      | AttemptOutcome.failure e =>
          if e = AtomicErrorKind.conflict then
            let retryCount2 := retryCount + 1
            let delay := retryDelayBase * 2 ^ (retryCount2 - 1)
            if retryCount2 ≤ maxRetries then
              atomicRetryAux attempts retryDelayBase maxRetries fuel
                (attemptIdx + 1) retryCount2 (LoopEvent.waited delay :: acc2)
            else ⟨Except.error e, acc2.reverse⟩
          else ⟨Except.error e, acc2.reverse⟩

/-- The retry loop of `atomicUpdate`, started with `retryCount = 0`; at most
`maxRetries + 1` iterations can run before a conflict is propagated. -/
def atomicUpdateRetry {α : Type} (attempts : Nat → AttemptOutcome α)
    (retryDelayBase maxRetries : Nat) : LoopResult α :=
  atomicRetryAux attempts retryDelayBase maxRetries (maxRetries + 1) 0 0 []

/-- Event trace of `k` consecutive conflicting iterations: each acquires and
releases the lock and then waits `retryDelayBase * 2 ^ attemptIndex`. -/
def conflictEvents (retryDelayBase : Nat) : Nat → List LoopEvent
  | 0 => []
  | k + 1 => conflictEvents retryDelayBase k ++
      [LoopEvent.acquired k, LoopEvent.released k,
       LoopEvent.waited (retryDelayBase * 2 ^ k)]

/-! ## Per-key advisory locks (`acquireLock` / `releaseLock`)

A timed small-step system for the locks of one storage key. `acquireLock`
busy-waits until no lock is recorded for the key and only then records its
own lock, so the acquire step carries the emptiness precondition; at
acquisition it schedules an automatic `releaseLock` timer for
`acquiredAt + timeout`. The held locks are modelled as a list (rather than
an option) precisely so that mutual exclusion is a provable invariant of
the check-before-set discipline, not a typing artifact. -/

/-- A lock entry as stored in the `locks` map. -/
structure LockInfo where
  id : Nat
  acquiredAt : Nat
  timeout : Nat
deriving Repr, DecidableEq

/-- `releaseLock`: releases only when a lock is recorded and its id matches;
otherwise the state is unchanged and `false` is returned. -/
def releaseLock (held : List LockInfo) (lockId : Nat) : List LockInfo × Bool :=
  match held with
  | [] => ([], false)
  | l :: rest => if l.id = lockId then (rest, true) else (l :: rest, false)

/-- State of the lock system for one key: the recorded locks, the pending
automatic-release timers as `(fireAt, lockId)` pairs, and the clock. -/
structure LockSysState where
  held : List LockInfo
  timers : List (Nat × Nat)
  now : Nat
deriving Repr, DecidableEq

/-- Small-step transitions of the lock system: time advances monotonically;
a waiter whose poll observes no recorded lock atomically records its own and
schedules the auto-release timer; an explicit release runs `releaseLock`; a
pending timer that is due fires and runs `releaseLock` with its own lock id. -/
inductive LockStep : LockSysState → LockSysState → Prop where
  | tick (s : LockSysState) (t : Nat) (h : s.now ≤ t) :
      LockStep s ⟨s.held, s.timers, t⟩
  | acquire (s : LockSysState) (lockId timeout : Nat) (hfree : s.held = []) :
      LockStep s ⟨[⟨lockId, s.now, timeout⟩],
        s.timers ++ [(s.now + timeout, lockId)], s.now⟩
  | release (s : LockSysState) (lockId : Nat) :
      LockStep s ⟨(releaseLock s.held lockId).1, s.timers, s.now⟩
  | fire (s : LockSysState) (fireAt lockId : Nat)
      (hmem : (fireAt, lockId) ∈ s.timers) (hdue : fireAt ≤ s.now) :
      LockStep s ⟨(releaseLock s.held lockId).1,
        s.timers.erase (fireAt, lockId), s.now⟩

/-- States reachable from the initial lock system state. -/
inductive LockReach : LockSysState → Prop where
  | init : LockReach ⟨[], [], 0⟩
  | step {s s2 : LockSysState} : LockReach s → LockStep s s2 → LockReach s2

/-! ## Request Lifecycle Manager (requestLifecycleManager.js)

The tracker state and its operations. Timeout timers are represented by the
`timeoutArmed` flag on each tracked request together with the explicit
`handleRequestTimeout` callback the timer would invoke; freeform diagnostic
metadata merged by `Object.assign` is not observable by any claim and is
elided. -/

/-- Request statuses used by the lifecycle manager. -/
inductive RStatus where
  | pending
  | completed
  | failed
  | timeout
  | cancelled
  | error
  | stale_cleanup
deriving Repr, DecidableEq

/-- A tracked request as stored in `activeRequests`. -/
structure TrackedRequest where
  id : String
  sequence : Nat
  timestamp : Nat
  status : RStatus
  reqType : String
  url : String
  tabId : Int
  timeoutArmed : Bool
  startTime : Nat
  lastUpdated : Option Nat
  duration : Option Nat
  completedAt : Option Nat
deriving Repr, DecidableEq

/-- A history entry produced by `addToHistory` (the URL is reduced to its
path in the source and not modelled). -/
structure HistoryEntry where
  id : String
  sequence : Nat
  reqType : String
  status : RStatus
  startTime : Nat
  completedAt : Option Nat
  duration : Option Nat
deriving Repr, DecidableEq

/-- State of the request lifecycle manager. -/
structure RLMState where
  activeRequests : List (String × TrackedRequest)
  requestHistory : List (String × HistoryEntry)
  requestSequence : Nat
  shutdownInitiated : Bool
  cleanupInProgress : Bool
deriving Repr, DecidableEq

/-- Initial lifecycle manager state. -/
def rlmInit : RLMState := ⟨[], [], 0, false, false⟩

/-- `config.requestTimeout` (TIMEOUTS.API_REQUEST default). -/
def requestTimeoutMs : Nat := 30000

/-- `config.cleanupInterval` (TIMEOUTS.STORAGE_CLEANUP default). -/
def cleanupIntervalMs : Nat := 60000

/-- `config.maxHistorySize` (LIMITS.MAX_LOG_ENTRIES default). -/
def maxHistorySize : Nat := 100

/-- `registerRequest`: unconditionally assigns the next sequence number,
creates a fresh pending record with an armed timeout timer, stores it under
the id (overwriting any record already there), and returns it. -/
def registerRequest (st : RLMState) (requestId reqType url : String)
    (tabId : Int) (now : Nat) : RLMState × TrackedRequest :=
  let sequence := st.requestSequence + 1
  let request : TrackedRequest :=
    { id := requestId, sequence := sequence, timestamp := now,
      status := RStatus.pending, reqType := reqType, url := url, tabId := tabId,
      timeoutArmed := true, startTime := now,
      lastUpdated := none, duration := none, completedAt := none }
  ({ st with
      requestSequence := sequence,
      activeRequests := mapSet st.activeRequests requestId request }, request)

/-- `isCompletedStatus`: the statuses the code treats as completion
(note: `stale_cleanup` is not in this list). -/
def isCompletedStatus (status : RStatus) : Bool :=
  [RStatus.completed, RStatus.failed, RStatus.timeout,
   RStatus.cancelled, RStatus.error].contains status

/-- `addToHistory`: store a history entry under the request id and evict the
oldest entry when the size limit is exceeded. -/
def addToHistory (st : RLMState) (request : TrackedRequest) : RLMState :=
  let entry : HistoryEntry :=
    { id := request.id, sequence := request.sequence, reqType := request.reqType,
      status := request.status, startTime := request.startTime,
      completedAt := request.completedAt, duration := request.duration }
  let hist := mapSet st.requestHistory request.id entry
  let hist := if maxHistorySize < hist.length then hist.drop 1 else hist
  { st with requestHistory := hist }

/-- `completeRequest`: clear the timeout timer, stamp `completedAt`, move the
record to the history, and remove it from the active map. -/
def completeRequest (st : RLMState) (requestId : String) (now : Nat) :
    RLMState × Bool :=
  match lookup st.activeRequests requestId with
  | none => (st, false)
  | some request =>
      let request := { request with timeoutArmed := false, completedAt := some now }
      let st := addToHistory st request
      ({ st with activeRequests := mapErase st.activeRequests requestId }, true)

/-- `updateRequestStatus`: `false` for an unknown id, `false` during shutdown
unless cancelling; otherwise stamp the new status and timing, and when the
new status is a completion status, complete the request. -/
def updateRequestStatus (st : RLMState) (requestId : String) (status : RStatus)
    (now : Nat) : RLMState × Bool :=
  match lookup st.activeRequests requestId with
  | none => (st, false)
  | some request =>
      if st.shutdownInitiated ∧ status ≠ RStatus.cancelled then (st, false)
      else
        let request := { request with
          status := status, lastUpdated := some now,
          duration := some (now - request.startTime) }
        let st := { st with
          activeRequests := mapSet st.activeRequests requestId request }
        if isCompletedStatus status then ((completeRequest st requestId now).1, true)
        else (st, true)

/-- `handleRequestTimeout`: the timeout timer callback; a request still in
the active map (whatever its status) is transitioned to `timeout`. -/
def handleRequestTimeout (st : RLMState) (requestId : String) (now : Nat) :
    RLMState :=
  match lookup st.activeRequests requestId with
  | none => st
  | some _ => (updateRequestStatus st requestId RStatus.timeout now).1

/-- `cleanupHistory`: drop history entries completed before the retention
cutoff (ten cleanup intervals). -/
def cleanupHistory (st : RLMState) (now : Nat) : RLMState :=
  let cutoffTime := now - cleanupIntervalMs * 10
  { st with requestHistory := st.requestHistory.filter (fun p =>
      match p.2.completedAt with
      | some t => decide (¬ t < cutoffTime)
      | none => true) }

/-- `performSafeCleanup`: skipped while a cleanup is already running;
otherwise every snapshot entry that is still `pending` and older than twice
the request timeout is transitioned to `stale_cleanup`, then old history is
pruned. -/
def performSafeCleanup (st : RLMState) (now : Nat) : RLMState :=
  if st.cleanupInProgress then st
  else
    let staleThreshold := requestTimeoutMs * 2
    let st := st.activeRequests.foldl (fun acc p =>
      let age := now - p.2.timestamp
      if staleThreshold < age ∧ p.2.status = RStatus.pending then
        (updateRequestStatus acc p.1 RStatus.stale_cleanup now).1
      else acc) st
    cleanupHistory st now

/-! ## Request Deduplicator (OptimizedRequestInterceptor)

The dedup hash (`generateRequestHash`) and window check
(`shouldDeduplicateRequest`). JavaScript 32-bit signed integer arithmetic is
embedded over `Int` with explicit wrapping. -/

/-- `DEDUP_WINDOW_MS`. -/
def DEDUP_WINDOW_MS : Nat := 5000

/-- Coerce an integer to a 32-bit signed integer, as the JavaScript bitwise
operators do. -/
def toInt32 (n : Int) : Int :=
  let m := n % 4294967296
  if m < 2147483648 then m else m - 4294967296

/-- One step of the dedup hash: `hash = ((hash << 5) - hash) + char`
followed by `hash = hash & hash` (coercion to 32 bits). -/
def jsHashStep (h : Int) (c : Nat) : Int :=
  toInt32 (toInt32 (h * 32) - h + c)

/-- The dedup hash over a string of character codes, starting from 0. -/
def jsHash (s : String) : Int :=
  s.data.foldl (fun h c => jsHashStep h c.toNat) 0

/-- `generateRequestHash`: hash of `method + ":" + url`, with the body
appended for a POST with a non-empty body (JS truthiness). The base-36
rendering of the source is an injective formatting step and is elided. -/
def generateRequestHash (url method : String) (body : Option String) : Int :=
  let hashInput := method ++ ":" ++ url
  let hashInput := match body with
    | some b => if method = "POST" ∧ b ≠ "" then hashInput ++ ":" ++ b else hashInput
    | none => hashInput
  jsHash hashInput

/-- `shouldDeduplicateRequest`: a hash seen within the window (with a truthy,
hence nonzero, stored timestamp) is dropped without refreshing the stored
timestamp; otherwise the current time is recorded and the request proceeds. -/
def shouldDeduplicateRequest (recentRequests : List (Int × Nat)) (hash : Int)
    (now : Nat) : Bool × List (Int × Nat) :=
  match lookup recentRequests hash with
  | some lastSeen =>
      if lastSeen ≠ 0 ∧ now - lastSeen < DEDUP_WINDOW_MS then
        (true, recentRequests)
      else
        (false, mapSet recentRequests hash now)
  | none => (false, mapSet recentRequests hash now)

/-! ## Data Merge layer (DataProcessor.mergeOrganizations)

Organization records with the fields the merge handles explicitly
(`customName`, `productGroups`, `lastSubsiteUpdate`) plus representative
plain data fields (`name`, `region`) standing for the remaining incoming
fields; `Option` models absent (`undefined`) JS fields, and product groups
are reduced to their identifiers. -/

/-- An organization record. -/
structure Organization where
  id : String
  name : String
  region : String
  customName : Option String
  productGroups : Option (List String)
  lastSubsiteUpdate : Option Nat
deriving Repr, DecidableEq

/-- The merged record for a matched pair: the incoming record with the
custom name carried over, the existing product groups (or `[]` when the
existing record has none, by JS truthiness of `|| []`), and the existing
`lastSubsiteUpdate`. -/
def mergeRecord (old newOrg : Organization) : Organization :=
  { newOrg with
      customName := old.customName,
      productGroups := some (old.productGroups.getD []),
      lastSubsiteUpdate := old.lastSubsiteUpdate }

/-- A brand new record: the incoming record with empty product groups. -/
def freshRecord (newOrg : Organization) : Organization :=
  { newOrg with productGroups := some [] }

/-- Replace the first record whose id matches the incoming record (the
`findIndex` + in-place assignment of the source); `none` when no record
matches. -/
def updateFirstById (newOrg : Organization) :
    List Organization → Option (List Organization)
  | [] => none
  | org :: rest =>
      if org.id = newOrg.id then some (mergeRecord org newOrg :: rest)
      else (updateFirstById newOrg rest).map (fun l => org :: l)

/-- One iteration of the merge loop: update the first matching record in
place, or append the incoming record as a new one. -/
def mergeStep (merged : List Organization) (newOrg : Organization) :
    List Organization :=
  match updateFirstById newOrg merged with
  | some merged2 => merged2
  | none => merged ++ [freshRecord newOrg]

/-- `DataProcessor.mergeOrganizations`: fold the merge loop over the
incoming records, starting from a copy of the existing list. -/
def mergeOrganizations (existing newOrgs : List Organization) :
    List Organization :=
  newOrgs.foldl mergeStep existing

/-- The ids of a list of organizations. -/
def orgIds (l : List Organization) : List String :=
  l.map Organization.id

/-- First record with the given id, if any. -/
def findById (orgId : String) : List Organization → Option Organization
  | [] => none
  | org :: rest => if org.id = orgId then some org else findById orgId rest

/-- Whether some record carries the given id. -/
def containsId (orgId : String) : List Organization → Bool
  | [] => false
  | org :: rest => if org.id = orgId then true else containsId orgId rest

/-- Closed form of `mergeOrganizations` for id-duplicate-free inputs: every
existing record is updated by its unique incoming match (if any) in place,
and the unmatched incoming records are appended, as fresh records, in
incoming order. -/
def mergeClosed (existing newOrgs : List Organization) : List Organization :=
  existing.map (fun org =>
    match findById org.id newOrgs with
    | some n => mergeRecord org n
    | none => org)
  ++ (newOrgs.filter (fun n => !(containsId n.id existing))).map freshRecord

/-- The current payload read by an `atomicUpdate` pass: the stored payload,
or the empty payload when the key is absent. -/
def currentPayload {α : Type} (emptyPayload : α) (st : SCMState α) : α :=
  match st.stored with
  | some r => r.payload
  | none => emptyPayload

/-! ## Association list lemmas -/

theorem lookup_mapSet_self {κ β : Type} [DecidableEq κ]
    (m : List (κ × β)) (k : κ) (v : β) : lookup (mapSet m k v) k = some v := by
  induction m with
  | nil => simp [mapSet, lookup]
  | cons p rest ih =>
      obtain ⟨k2, v2⟩ := p
      by_cases h : k2 = k
      · simp [mapSet, h, lookup]
      · simp [mapSet, h, lookup, ih]

/-! ## Storage Consistency Manager lemmas -/

theorem atomicAttemptBody_valid {α : Type} (cp : α) (cv : Nat) (f : α → α)
    (v : Option (α → α → Bool)) (n tx : Nat) (st : SCMState α)
    (hv : (match v with | some vf => vf (f cp) cp | none => true) = true) :
    atomicAttemptBody cp cv f v n tx st =
      (AttemptResult.ok (getNextVersion st.memVersion) (f cp),
       ⟨some (getNextVersion st.memVersion),
        some ⟨f cp, getNextVersion st.memVersion, n, tx⟩,
        storeBackup st.backups ⟨cv, cp, n⟩⟩) := by
  unfold atomicAttemptBody
  simp only [hv, if_true]

theorem atomicAttemptBody_invalid {α : Type} (cp : α) (cv : Nat) (f : α → α)
    (v : Option (α → α → Bool)) (n tx : Nat) (st : SCMState α)
    (hv : (match v with | some vf => vf (f cp) cp | none => true) = false) :
    atomicAttemptBody cp cv f v n tx st =
      (AttemptResult.validationError,
       { st with backups := storeBackup st.backups ⟨cv, cp, n⟩ }) := by
  unfold atomicAttemptBody
  simp only [hv, if_false, Bool.false_eq_true]

theorem atomicAttempt_consistent {α : Type} (e : α) (f : α → α)
    (v : Option (α → α → Bool)) (n tx : Nat) (st : SCMState α)
    (h : Consistent st) :
    atomicAttempt e f v n tx st =
      atomicAttemptBody (currentPayload e st) (persistedVersion st) f v n tx st := by
  unfold atomicAttempt currentPayload persistedVersion
  cases hs : st.stored with
  | none =>
      have hm : st.memVersion = none := by rw [h, hs]; rfl
      simp [hm, hs]
  | some r =>
      have hm : st.memVersion = some r.version := by rw [h, hs]; rfl
      simp [hm, hs]

theorem getNextVersion_consistent {α : Type} (st : SCMState α)
    (h : Consistent st) :
    getNextVersion st.memVersion = persistedVersion st + 1 := by
  unfold getNextVersion persistedVersion
  cases hs : st.stored with
  | none =>
      have hm : st.memVersion = none := by rw [h, hs]; rfl
      simp [hm]
  | some r =>
      have hm : st.memVersion = some r.version := by rw [h, hs]; rfl
      simp [hm]

theorem runUpdates_spec {α : Type} (e : α) :
    ∀ (steps : List ((α → α) × Option (α → α → Bool))) (n : Nat)
      (st : SCMState α), Consistent st →
      Consistent (runUpdates e n st steps).1 ∧
      persistedVersion (runUpdates e n st steps).1 =
        persistedVersion st + (okVersions (runUpdates e n st steps).2).length ∧
      okVersions (runUpdates e n st steps).2 =
        List.range' (persistedVersion st + 1)
          (okVersions (runUpdates e n st steps).2).length := by
  intro steps
  induction steps with
  | nil =>
      intro n st h
      simp [runUpdates, okVersions]
      exact h
  | cons step rest ih =>
      intro n st h
      have hattempt := atomicAttempt_consistent e step.1 step.2 n n st h
      cases hval : (match step.2 with
        | some vf => vf (step.1 (currentPayload e st)) (currentPayload e st)
        | none => true) with
      | true =>
          have hbody := atomicAttemptBody_valid (currentPayload e st)
            (persistedVersion st) step.1 step.2 n n st hval
          rw [getNextVersion_consistent st h] at hbody
          have hout : atomicAttempt e step.1 step.2 n n st =
            (AttemptResult.ok (persistedVersion st + 1) (step.1 (currentPayload e st)),
             ⟨some (persistedVersion st + 1),
              some ⟨step.1 (currentPayload e st), persistedVersion st + 1, n, n⟩,
              storeBackup st.backups ⟨persistedVersion st, currentPayload e st, n⟩⟩) := by
            rw [hattempt, hbody]
          have hrun : runUpdates e n st (step :: rest) =
            ((runUpdates e (n + 1) (atomicAttempt e step.1 step.2 n n st).2 rest).1,
             (atomicAttempt e step.1 step.2 n n st).1 ::
               (runUpdates e (n + 1) (atomicAttempt e step.1 step.2 n n st).2 rest).2) := rfl
          rw [hrun, hout]
          set st2 : SCMState α :=
            { memVersion := some (persistedVersion st + 1),
              stored := some ⟨step.1 (currentPayload e st), persistedVersion st + 1, n, n⟩,
              backups := storeBackup st.backups ⟨persistedVersion st, currentPayload e st, n⟩ } with hst2
          have hc2 : Consistent st2 := by simp [Consistent, hst2]
          have hpv2 : persistedVersion st2 = persistedVersion st + 1 := by
            simp [persistedVersion, hst2]
          obtain ⟨ihc, ihpv, ihrange⟩ := ih (n + 1) st2 hc2
          refine ⟨ihc, ?_, ?_⟩
          · simp only [okVersions, List.length_cons]
            rw [ihpv, hpv2]
            omega
          · simp only [okVersions, List.length_cons]
            rw [List.range'_succ]
            rw [ihrange, hpv2]
            simp [List.length_range']
      | false =>
          have hbody := atomicAttemptBody_invalid (currentPayload e st)
            (persistedVersion st) step.1 step.2 n n st hval
          have hout : atomicAttempt e step.1 step.2 n n st =
            (AttemptResult.validationError,
             { st with backups := storeBackup st.backups ⟨persistedVersion st, currentPayload e st, n⟩ }) := by
            rw [hattempt, hbody]
          have hrun : runUpdates e n st (step :: rest) =
            ((runUpdates e (n + 1) (atomicAttempt e step.1 step.2 n n st).2 rest).1,
             (atomicAttempt e step.1 step.2 n n st).1 ::
               (runUpdates e (n + 1) (atomicAttempt e step.1 step.2 n n st).2 rest).2) := rfl
          rw [hrun, hout]
          set st2 : SCMState α := { st with backups := storeBackup st.backups ⟨persistedVersion st, currentPayload e st, n⟩ } with hst2
          have hc2 : Consistent st2 := by
            simp only [Consistent, hst2]
            exact h
          have hpv2 : persistedVersion st2 = persistedVersion st := by
            simp [persistedVersion, hst2]
          obtain ⟨ihc, ihpv, ihrange⟩ := ih (n + 1) st2 hc2
          refine ⟨ihc, ?_, ?_⟩
          · simp only [okVersions]
            rw [ihpv, hpv2]
          · simp only [okVersions]
            rw [ihrange, hpv2]
            simp [List.length_range']

/-- Claim C1: starting from an absent record, every successful `atomicUpdate`
writes a record whose version is the previously persisted version plus one:
after a run whose successful updates number N, the persisted version is
exactly N, the versions produced by the successful updates are exactly
1, 2, ..., N in order (the i-th success finds persisted version i - 1 and
writes i), and no two successful updates produce the same version. -/
theorem atomicUpdate_version_monotonicity {α : Type} (emptyPayload : α)
    (steps : List ((α → α) × Option (α → α → Bool))) :
    persistedVersion (runUpdates emptyPayload 1 scmInit steps).1 =
      (okVersions (runUpdates emptyPayload 1 scmInit steps).2).length ∧
    okVersions (runUpdates emptyPayload 1 scmInit steps).2 =
      List.range' 1 (okVersions (runUpdates emptyPayload 1 scmInit steps).2).length ∧
    (okVersions (runUpdates emptyPayload 1 scmInit steps).2).Nodup := by
  have h0 : Consistent (scmInit : SCMState α) := by simp [Consistent, scmInit]
  obtain ⟨hc, hpv, hrange⟩ := runUpdates_spec emptyPayload steps 1 scmInit h0
  have hpv0 : persistedVersion (scmInit : SCMState α) = 0 := rfl
  rw [hpv0] at hpv hrange
  simp only [Nat.zero_add] at hpv hrange
  refine ⟨?_, ?_, ?_⟩
  · rw [hpv]
  · rw [hrange]
    simp [List.length_range']
  · rw [hrange]
    exact List.nodup_range' _ _

/-- Claim C8: after three successful `atomicUpdate` calls from an absent
record (persisted version 3), `rollback` to target version 1 finds the
backup whose recorded pre-update version is 1 (the snapshot taken while the
persisted version was 1, holding the first payload) and replays it as a
forward versioned write: the resulting record carries that snapshot as its
payload but version 4, never a reset to 1; and a rollback to a version with
no retained backup fails with a reportable error without writing anything. -/
theorem rollback_restores_and_advances {α : Type} (e p1 p2 p3 : α) :
    persistedVersion
      ((atomicAttempt e (fun _ => p3) none 3 3
        ((atomicAttempt e (fun _ => p2) none 2 2
          ((atomicAttempt e (fun _ => p1) none 1 1 scmInit).2)).2)).2) = 3 ∧
    rollback e
      ((atomicAttempt e (fun _ => p3) none 3 3
        ((atomicAttempt e (fun _ => p2) none 2 2
          ((atomicAttempt e (fun _ => p1) none 1 1 scmInit).2)).2)).2) 1 4 4 =
      Except.ok (AttemptResult.ok 4 p1,
        ⟨some 4, some ⟨p1, 4, 4, 4⟩,
         [⟨3, p3, 4⟩, ⟨2, p2, 3⟩, ⟨1, p1, 2⟩, ⟨0, e, 1⟩]⟩) ∧
    rollback e
      ((atomicAttempt e (fun _ => p3) none 3 3
        ((atomicAttempt e (fun _ => p2) none 2 2
          ((atomicAttempt e (fun _ => p1) none 1 1 scmInit).2)).2)).2) 99 4 4 =
      Except.error "No backup found" :=
  ⟨rfl, rfl, rfl⟩

/-! ## Retry loop lemmas -/

theorem atomicRetryAux_conflict_prefix {α : Type} (attempts : Nat → AttemptOutcome α)
    (base maxRetries : Nat) :
    ∀ k, k ≤ maxRetries →
      (∀ i, i < k → attempts i = AttemptOutcome.failure AtomicErrorKind.conflict) →
      atomicUpdateRetry attempts base maxRetries =
        atomicRetryAux attempts base maxRetries (maxRetries + 1 - k) k k
          ((conflictEvents base k).reverse) := by
  intro k
  induction k with
  | zero => intro _ _; rfl
  | succ k ih =>
      intro hk hc
      have hk2 : k ≤ maxRetries := Nat.le_of_succ_le hk
      rw [ih hk2 (fun i hi => hc i (Nat.lt_succ_of_lt hi))]
      have hfuel : maxRetries + 1 - k = (maxRetries - k) + 1 := by omega
      rw [hfuel]
      simp only [atomicRetryAux, hc k (Nat.lt_succ_self k)]
      simp only [if_true, Nat.add_sub_cancel]
      rw [if_pos hk]
      have hfuel2 : maxRetries + 1 - (k + 1) = maxRetries - k := by omega
      have hacc : (conflictEvents base (k + 1)).reverse =
          LoopEvent.waited (base * 2 ^ k) :: LoopEvent.released k ::
          LoopEvent.acquired k :: (conflictEvents base k).reverse := by
        simp [conflictEvents]
      rw [hfuel2, hacc]

/-- Claim C3: in the retry loop of `atomicUpdate`, after any run of `k`
conflicting iterations (each of which acquired and then released the lock
and, having retries left, waited the exponential backoff delay
`retryDelayBase * 2 ^ attemptIndex` recorded in `conflictEvents`):
a successful iteration returns the success; a non-conflict failure
(validation or write verification) is propagated immediately with no
further iteration and no backoff wait; and a conflict on the final
permitted iteration (`k = maxRetries`, after which retries are exhausted)
propagates the conflict error to the caller instead of looping further. -/
theorem atomicUpdate_conflict_retry {α : Type} (attempts : Nat → AttemptOutcome α)
    (base maxRetries k : Nat) (hk : k ≤ maxRetries)
    (hc : ∀ i, i < k → attempts i = AttemptOutcome.failure AtomicErrorKind.conflict) :
    (∀ r, attempts k = AttemptOutcome.success r →
        atomicUpdateRetry attempts base maxRetries =
          ⟨Except.ok r,
           conflictEvents base k ++ [LoopEvent.acquired k, LoopEvent.released k]⟩) ∧
    (∀ e, e ≠ AtomicErrorKind.conflict → attempts k = AttemptOutcome.failure e →
        atomicUpdateRetry attempts base maxRetries =
          ⟨Except.error e,
           conflictEvents base k ++ [LoopEvent.acquired k, LoopEvent.released k]⟩) ∧
    (k = maxRetries → attempts k = AttemptOutcome.failure AtomicErrorKind.conflict →
        atomicUpdateRetry attempts base maxRetries =
          ⟨Except.error AtomicErrorKind.conflict,
           conflictEvents base maxRetries ++
             [LoopEvent.acquired maxRetries, LoopEvent.released maxRetries]⟩) := by
  have hpre := atomicRetryAux_conflict_prefix attempts base maxRetries k hk hc
  have hfuel : maxRetries + 1 - k = (maxRetries - k) + 1 := by omega
  rw [hfuel] at hpre
  refine ⟨?_, ?_, ?_⟩
  · intro r hr
    rw [hpre]
    simp only [atomicRetryAux, hr]
    simp [List.reverse_cons, List.append_assoc]
  · intro e he hr
    rw [hpre]
    simp only [atomicRetryAux, hr]
    rw [if_neg he]
    simp [List.reverse_cons, List.append_assoc]
  · intro hkm hr
    subst hkm
    rw [hpre]
    simp only [atomicRetryAux, hr]
    simp only [if_true]
    rw [if_neg (by omega : ¬ k + 1 ≤ k)]
    simp [List.reverse_cons, List.append_assoc]

/-- Witness for claim C3: with retry delay base 1000 and `maxRetries = 3`,
a run whose first two iterations conflict and whose third succeeds returns
the success after waiting 1000 then 2000 milliseconds. -/
theorem atomicUpdate_conflict_retry_witness :
    atomicUpdateRetry
      (fun i => if i < 2 then AttemptOutcome.failure AtomicErrorKind.conflict
                else AttemptOutcome.success (42 : Nat)) 1000 3 =
      ⟨Except.ok 42,
       conflictEvents 1000 2 ++ [LoopEvent.acquired 2, LoopEvent.released 2]⟩ :=
  (atomicUpdate_conflict_retry
    (fun i => if i < 2 then AttemptOutcome.failure AtomicErrorKind.conflict
              else AttemptOutcome.success (42 : Nat)) 1000 3 2
    (by decide) (by decide)).1 42 (by decide)

/-! ## Lock system lemmas -/

theorem lockReach_inv : ∀ s : LockSysState, LockReach s →
    s.held.length ≤ 1 ∧
    ∀ l ∈ s.held, (l.acquiredAt + l.timeout, l.id) ∈ s.timers := by
  intro s h
  induction h with
  | init => exact ⟨by simp, by simp⟩
  | step hr hstep ih =>
      rename_i s1 s2
      cases hstep with
      | tick t ht => exact ⟨ih.1, ih.2⟩
      | acquire lockId T hfree =>
          refine ⟨by simp, ?_⟩
          intro l hl
          simp at hl
          subst hl
          simp
      | release lockId =>
          obtain ⟨h1, h2⟩ := ih
          cases hh : s1.held with
          | nil =>
              refine ⟨by simp [releaseLock, hh], ?_⟩
              intro l hl
              simp [releaseLock, hh] at hl
          | cons l0 rest =>
              have hrest : rest = [] := by
                rw [hh, List.length_cons] at h1
                exact List.eq_nil_of_length_eq_zero
                  (Nat.le_zero.mp (Nat.le_of_succ_le_succ h1))
              subst hrest
              by_cases hid : l0.id = lockId
              · refine ⟨by simp [releaseLock, hh, hid], ?_⟩
                intro l hl
                simp [releaseLock, hh, hid] at hl
              · refine ⟨by simp [releaseLock, hh, hid], ?_⟩
                intro l hl
                simp [releaseLock, hh, hid] at hl
                rw [hl]
                exact h2 l0 (by rw [hh]; exact List.mem_cons_self l0 [])
      | fire ft lockId hmem hdue =>
          obtain ⟨h1, h2⟩ := ih
          cases hh : s1.held with
          | nil =>
              refine ⟨by simp [releaseLock, hh], ?_⟩
              intro l hl
              simp [releaseLock, hh] at hl
          | cons l0 rest =>
              have hrest : rest = [] := by
                rw [hh, List.length_cons] at h1
                exact List.eq_nil_of_length_eq_zero
                  (Nat.le_zero.mp (Nat.le_of_succ_le_succ h1))
              subst hrest
              by_cases hid : l0.id = lockId
              · refine ⟨by simp [releaseLock, hh, hid], ?_⟩
                intro l hl
                simp [releaseLock, hh, hid] at hl
              · refine ⟨by simp [releaseLock, hh, hid], ?_⟩
                intro l hl
                simp [releaseLock, hh, hid] at hl
                rw [hl]
                have htm := h2 l0 (by rw [hh]; exact List.mem_cons_self l0 [])
                have hne2 : (l0.acquiredAt + l0.timeout, l0.id) ≠ (ft, lockId) := by
                  intro hcontra
                  exact hid (congrArg Prod.snd hcontra)
                exact (List.mem_erase_of_ne hne2).mpr htm

/-- Claim C2: in every reachable state of the lock system, at most one lock
is recorded for the key; and whenever a lock is held, even if its holder
never calls `releaseLock`, the pending auto-release timer armed at
acquisition can fire once the clock reaches `acquiredAt + timeout` (no
holder cooperation involved), after which no lock is held and a subsequent
acquisition by any new caller succeeds. -/
theorem lock_mutual_exclusion_auto_release (s : LockSysState)
    (hs : LockReach s) :
    s.held.length ≤ 1 ∧
    ∀ l, s.held = [l] →
      (LockStep s ⟨[l], s.timers, max s.now (l.acquiredAt + l.timeout)⟩ ∧
       LockStep ⟨[l], s.timers, max s.now (l.acquiredAt + l.timeout)⟩
         ⟨[], s.timers.erase (l.acquiredAt + l.timeout, l.id),
          max s.now (l.acquiredAt + l.timeout)⟩ ∧
       ∀ newId newTimeout : Nat,
         LockStep
           ⟨[], s.timers.erase (l.acquiredAt + l.timeout, l.id),
            max s.now (l.acquiredAt + l.timeout)⟩
           ⟨[⟨newId, max s.now (l.acquiredAt + l.timeout), newTimeout⟩],
            s.timers.erase (l.acquiredAt + l.timeout, l.id) ++
              [(max s.now (l.acquiredAt + l.timeout) + newTimeout, newId)],
            max s.now (l.acquiredAt + l.timeout)⟩) := by
  obtain ⟨h1, h2⟩ := lockReach_inv s hs
  refine ⟨h1, ?_⟩
  intro l hl
  refine ⟨?_, ?_, ?_⟩
  · have ht := LockStep.tick s (max s.now (l.acquiredAt + l.timeout))
      (Nat.le_max_left _ _)
    rw [hl] at ht
    exact ht
  · have hmem : (l.acquiredAt + l.timeout, l.id) ∈ s.timers :=
      h2 l (by rw [hl]; exact List.mem_cons_self l [])
    have hf := LockStep.fire ⟨[l], s.timers, max s.now (l.acquiredAt + l.timeout)⟩
      (l.acquiredAt + l.timeout) l.id hmem (Nat.le_max_right _ _)
    simpa [releaseLock] using hf
  · intro newId newTimeout
    exact LockStep.acquire _ newId newTimeout rfl

/-- Witness for claim C2: a lock with id 5 acquired at time 0 with timeout
100 is reachable, held alone, auto-released by its timer at time 100, and a
new acquisition with id 7 then succeeds. -/
theorem lock_mutual_exclusion_auto_release_witness :
    ([⟨5, 0, 100⟩] : List LockInfo).length ≤ 1 ∧
    LockStep ⟨[⟨5, 0, 100⟩], [(100, 5)], 0⟩ ⟨[⟨5, 0, 100⟩], [(100, 5)], 100⟩ ∧
    LockStep ⟨[⟨5, 0, 100⟩], [(100, 5)], 100⟩ ⟨[], [], 100⟩ ∧
    LockStep ⟨[], [], 100⟩ ⟨[⟨7, 100, 50⟩], [(150, 7)], 100⟩ := by
  have hreach : LockReach ⟨[⟨5, 0, 100⟩], [(100, 5)], 0⟩ := by
    have hstep := LockStep.acquire ⟨[], [], 0⟩ 5 100 rfl
    exact LockReach.step LockReach.init hstep
  obtain ⟨h1, h2⟩ := lock_mutual_exclusion_auto_release _ hreach
  obtain ⟨ht, hf, hacq⟩ := h2 ⟨5, 0, 100⟩ rfl
  refine ⟨h1, ?_, ?_, ?_⟩
  · simpa using ht
  · simpa [List.erase_cons_head] using hf
  · simpa [List.erase_cons_head] using hacq 7 50

/-- Claim C10: a stale auto-release timer can only release the acquisition
that armed it. After its holder released lock id1 explicitly and another
caller acquired a fresh lock id2 for the same key, the state with the stale
timer pending is reachable, the stale timer firing runs `releaseLock` with
id1, which returns `false` on the id mismatch and leaves the new lock held. -/
theorem stale_timer_cannot_release_new_lock (id1 id2 T1 T2 : Nat)
    (hne : id1 ≠ id2) :
    releaseLock [⟨id2, 0, T2⟩] id1 = ([⟨id2, 0, T2⟩], false) ∧
    LockStep ⟨[⟨id2, 0, T2⟩], [(T1, id1), (T2, id2)], T1⟩
      ⟨[⟨id2, 0, T2⟩], [(T2, id2)], T1⟩ ∧
    LockReach ⟨[⟨id2, 0, T2⟩], [(T2, id2)], T1⟩ := by
  have hrel : releaseLock [(⟨id2, 0, T2⟩ : LockInfo)] id1 = ([⟨id2, 0, T2⟩], false) := by
    simp [releaseLock, Ne.symm hne]
  have hfire : LockStep ⟨[⟨id2, 0, T2⟩], [(T1, id1), (T2, id2)], T1⟩
      ⟨[⟨id2, 0, T2⟩], [(T2, id2)], T1⟩ := by
    have hf := LockStep.fire ⟨[⟨id2, 0, T2⟩], [(T1, id1), (T2, id2)], T1⟩ T1 id1
      (by simp) (Nat.le_refl T1)
    simpa [hrel, List.erase_cons_head] using hf
  refine ⟨hrel, hfire, ?_⟩
  have r1 : LockReach ⟨[⟨id1, 0, T1⟩], [(0 + T1, id1)], 0⟩ :=
    LockReach.step LockReach.init (LockStep.acquire ⟨[], [], 0⟩ id1 T1 rfl)
  rw [Nat.zero_add] at r1
  have hrel1 : (releaseLock [(⟨id1, 0, T1⟩ : LockInfo)] id1).1 = [] := by
    simp [releaseLock]
  have r2 : LockReach ⟨[], [(T1, id1)], 0⟩ := by
    have := LockReach.step r1 (LockStep.release ⟨[⟨id1, 0, T1⟩], [(T1, id1)], 0⟩ id1)
    rwa [hrel1] at this
  have r3 : LockReach ⟨[⟨id2, 0, T2⟩], [(T1, id1), (0 + T2, id2)], 0⟩ :=
    LockReach.step r2 (LockStep.acquire ⟨[], [(T1, id1)], 0⟩ id2 T2 rfl)
  rw [Nat.zero_add] at r3
  have r4 : LockReach ⟨[⟨id2, 0, T2⟩], [(T1, id1), (T2, id2)], T1⟩ :=
    LockReach.step r3 (LockStep.tick _ T1 (Nat.zero_le T1))
  exact LockReach.step r4 hfire

/-- Witness for claim C10 at lock ids 1 and 2 with timeouts 50 and 60. -/
theorem stale_timer_cannot_release_new_lock_witness :
    releaseLock [⟨2, 0, 60⟩] 1 = ([⟨2, 0, 60⟩], false) ∧
    LockStep ⟨[⟨2, 0, 60⟩], [(50, 1), (60, 2)], 50⟩
      ⟨[⟨2, 0, 60⟩], [(60, 2)], 50⟩ ∧
    LockReach ⟨[⟨2, 0, 60⟩], [(60, 2)], 50⟩ :=
  stale_timer_cannot_release_new_lock 1 2 50 60 (by decide)

/-! ## Request lifecycle theorems -/

/-- Claim C4 (code bug): `stale_cleanup` is missing from `isCompletedStatus`,
so a request swept to the `stale_cleanup` status (pending, older than twice
the request timeout, its timeout timer never having fired) is not completed:
it stays in the active map with its timer flag still armed, a further
`updateRequestStatus` call for it returns `true` rather than `false`, and
the request then reaches a second terminal status (`completed` here, or
`timeout` when the timeout path runs) contrary to the terminality the sweep
is meant to guarantee. -/
theorem staleCleanup_not_terminal_bug :
    lookup (performSafeCleanup
        (registerRequest rlmInit "r1" "organizations" "https://x" 1 0).1
        70000).activeRequests "r1" =
      some ⟨"r1", 1, 0, RStatus.stale_cleanup, "organizations", "https://x",
        1, true, 0, some 70000, some 70000, none⟩ ∧
    (updateRequestStatus (performSafeCleanup
        (registerRequest rlmInit "r1" "organizations" "https://x" 1 0).1
        70000) "r1" RStatus.completed 70001).2 = true ∧
    lookup (updateRequestStatus (performSafeCleanup
        (registerRequest rlmInit "r1" "organizations" "https://x" 1 0).1
        70000) "r1" RStatus.completed 70001).1.requestHistory "r1" =
      some ⟨"r1", 1, "organizations", RStatus.completed, 0, some 70001, some 70001⟩ ∧
    lookup (handleRequestTimeout (performSafeCleanup
        (registerRequest rlmInit "r1" "organizations" "https://x" 1 0).1
        70000) "r1" 80000).requestHistory "r1" =
      some ⟨"r1", 1, "organizations", RStatus.timeout, 0, some 80000, some 80000⟩ :=
  ⟨rfl, rfl, rfl, rfl⟩

/-- Counterexample to claim C9 as stated: re-registering an id that is
already registered and still pending does not return the existing tracked
record with its original sequence number; the call returns a fresh record
(sequence 2, not 1) and overwrites the stored entry with it. -/
theorem registerRequest_duplicate_counterexample :
    (registerRequest (registerRequest rlmInit "r1" "organizations" "https://x" 1 0).1
        "r1" "organizations" "https://x" 1 5).2.sequence = 2 ∧
    (registerRequest rlmInit "r1" "organizations" "https://x" 1 0).2.sequence = 1 ∧
    ¬((registerRequest (registerRequest rlmInit "r1" "organizations" "https://x" 1 0).1
        "r1" "organizations" "https://x" 1 5).2 =
      (registerRequest rlmInit "r1" "organizations" "https://x" 1 0).2) ∧
    lookup (registerRequest (registerRequest rlmInit "r1" "organizations" "https://x" 1 0).1
        "r1" "organizations" "https://x" 1 5).1.activeRequests "r1" =
      some (registerRequest (registerRequest rlmInit "r1" "organizations" "https://x" 1 0).1
        "r1" "organizations" "https://x" 1 5).2 :=
  ⟨rfl, rfl, by decide, rfl⟩

/-- Claim C9 (amended): `registerRequest` performs no duplicate check and
never fails: re-registering an id that is already registered and still
pending unconditionally creates a fresh pending record carrying the next
sequence number and a newly armed timer, overwrites the stored entry with
it, and returns the fresh record rather than the existing one. -/
theorem registerRequest_overwrites_duplicates (st : RLMState)
    (requestId reqType url : String) (tabId : Int) (t1 t2 : Nat) :
    (registerRequest st requestId reqType url tabId t1).2.sequence =
      st.requestSequence + 1 ∧
    (registerRequest (registerRequest st requestId reqType url tabId t1).1
        requestId reqType url tabId t2).2.sequence = st.requestSequence + 2 ∧
    (registerRequest (registerRequest st requestId reqType url tabId t1).1
        requestId reqType url tabId t2).2.sequence ≠
      (registerRequest st requestId reqType url tabId t1).2.sequence ∧
    (registerRequest (registerRequest st requestId reqType url tabId t1).1
        requestId reqType url tabId t2).2.status = RStatus.pending ∧
    (registerRequest (registerRequest st requestId reqType url tabId t1).1
        requestId reqType url tabId t2).2.timeoutArmed = true ∧
    lookup (registerRequest (registerRequest st requestId reqType url tabId t1).1
        requestId reqType url tabId t2).1.activeRequests requestId =
      some (registerRequest (registerRequest st requestId reqType url tabId t1).1
        requestId reqType url tabId t2).2 := by
  refine ⟨rfl, rfl, by simp [registerRequest], rfl, rfl, ?_⟩
  exact lookup_mapSet_self _ _ _

/-! ## Deduplication theorems -/

/-- Claim C5: for a `(method, url, body)` triple whose hash is not yet
recorded, the first dedup check at a (positive) time `t1` returns `false`
and records `t1`; a second identical check within the window returns `true`
and leaves the map unchanged, so the stored timestamp stays `t1` (repeats
are measured against the original observation, no window creep); a third
identical check once the window has elapsed from `t1` returns `false`
again and records its own time. -/
theorem shouldDeduplicate_window (url method : String) (body : Option String)
    (m0 : List (Int × Nat)) (t1 t2 t3 : Nat) (hash : Int)
    (hhash : hash = generateRequestHash url method body)
    (hfresh : lookup m0 hash = none)
    (ht1 : 0 < t1) (hwin : t2 - t1 < DEDUP_WINDOW_MS)
    (hel : t1 + DEDUP_WINDOW_MS ≤ t3) :
    shouldDeduplicateRequest m0 hash t1 = (false, mapSet m0 hash t1) ∧
    shouldDeduplicateRequest (mapSet m0 hash t1) hash t2 =
      (true, mapSet m0 hash t1) ∧
    lookup (mapSet m0 hash t1) hash = some t1 ∧
    shouldDeduplicateRequest (mapSet m0 hash t1) hash t3 =
      (false, mapSet (mapSet m0 hash t1) hash t3) ∧
    lookup (mapSet (mapSet m0 hash t1) hash t3) hash = some t3 := by
  have hl1 : lookup (mapSet m0 hash t1) hash = some t1 := lookup_mapSet_self _ _ _
  refine ⟨?_, ?_, hl1, ?_, lookup_mapSet_self _ _ _⟩
  · simp only [shouldDeduplicateRequest, hfresh]
  · simp only [shouldDeduplicateRequest, hl1]
    rw [if_pos ⟨ht1.ne', hwin⟩]
  · simp only [shouldDeduplicateRequest, hl1]
    rw [if_neg (fun hcon => absurd hcon.2 (by omega))]

/-- Witness for claim C5 with the triple `("GET", "u", no body)`, an empty
dedup map, and times 1000, 3000 and 6000. -/
theorem shouldDeduplicate_window_witness :
    shouldDeduplicateRequest [] (generateRequestHash "u" "GET" none) 1000 =
      (false, mapSet [] (generateRequestHash "u" "GET" none) 1000) ∧
    shouldDeduplicateRequest (mapSet [] (generateRequestHash "u" "GET" none) 1000)
        (generateRequestHash "u" "GET" none) 3000 =
      (true, mapSet [] (generateRequestHash "u" "GET" none) 1000) ∧
    lookup (mapSet [] (generateRequestHash "u" "GET" none) 1000)
        (generateRequestHash "u" "GET" none) = some 1000 ∧
    shouldDeduplicateRequest (mapSet [] (generateRequestHash "u" "GET" none) 1000)
        (generateRequestHash "u" "GET" none) 6000 =
      (false, mapSet (mapSet [] (generateRequestHash "u" "GET" none) 1000)
        (generateRequestHash "u" "GET" none) 6000) ∧
    lookup (mapSet (mapSet [] (generateRequestHash "u" "GET" none) 1000)
        (generateRequestHash "u" "GET" none) 6000)
        (generateRequestHash "u" "GET" none) = some 6000 :=
  shouldDeduplicate_window "u" "GET" none [] 1000 3000 6000
    (generateRequestHash "u" "GET" none) rfl rfl (by decide) (by decide) (by decide)

/-! ## Merge layer lemmas -/

theorem mem_orgIds {n : Organization} {l : List Organization} (h : n ∈ l) :
    n.id ∈ orgIds l := by
  simp only [orgIds]
  exact List.mem_map_of_mem Organization.id h

theorem containsId_true_iff (i : String) (l : List Organization) :
    containsId i l = true ↔ i ∈ orgIds l := by
  induction l with
  | nil => simp [containsId, orgIds]
  | cons o rest ih =>
      simp only [containsId, orgIds, List.map_cons, List.mem_cons]
      simp only [orgIds] at ih
      by_cases h : o.id = i
      · simp [h]
      · simp only [h, if_false]
        rw [ih]
        constructor
        · intro hm
          exact Or.inr hm
        · intro hm
          rcases hm with h1 | h2
          · exact absurd h1.symm h
          · exact h2

theorem containsId_false_iff (i : String) (l : List Organization) :
    containsId i l = false ↔ i ∉ orgIds l := by
  rw [← containsId_true_iff]
  cases containsId i l <;> simp

theorem containsId_append (i : String) (l1 l2 : List Organization) :
    containsId i (l1 ++ l2) = (containsId i l1 || containsId i l2) := by
  induction l1 with
  | nil => simp [containsId]
  | cons o rest ih =>
      by_cases h : o.id = i
      · simp [containsId, h]
      · simp [containsId, h, ih]

theorem containsId_congr_ids (i : String) {l l2 : List Organization}
    (h : orgIds l = orgIds l2) : containsId i l = containsId i l2 := by
  cases hc : containsId i l2
  · rw [containsId_false_iff] at hc ⊢
    rw [h]
    exact hc
  · rw [containsId_true_iff] at hc ⊢
    rw [h]
    exact hc

theorem findById_eq_none_iff (i : String) (l : List Organization) :
    findById i l = none ↔ i ∉ orgIds l := by
  induction l with
  | nil => simp [findById, orgIds]
  | cons o rest ih =>
      simp only [findById, orgIds, List.map_cons, List.mem_cons]
      simp only [orgIds] at ih
      by_cases h : o.id = i
      · simp [h]
      · simp only [h, if_false]
        rw [ih]
        constructor
        · intro hm hcon
          rcases hcon with h1 | h2
          · exact h h1.symm
          · exact hm h2
        · intro hm h2
          exact hm (Or.inr h2)

theorem findById_spec {i : String} : ∀ {l : List Organization} {n : Organization},
    findById i l = some n → n ∈ l ∧ n.id = i := by
  intro l
  induction l with
  | nil => intro n h; simp [findById] at h
  | cons o rest ih =>
      intro n h
      by_cases ho : o.id = i
      · simp [findById, ho] at h
        subst h
        exact ⟨List.mem_cons_self o rest, ho⟩
      · simp [findById, ho] at h
        obtain ⟨hm, hid⟩ := ih h
        exact ⟨List.mem_cons_of_mem o hm, hid⟩

theorem findById_eq_some {i : String} : ∀ {l : List Organization} {n : Organization},
    (orgIds l).Nodup → n ∈ l → n.id = i → findById i l = some n := by
  intro l
  induction l with
  | nil => intro n _ hm; simp at hm
  | cons o rest ih =>
      intro n hN hm hid
      simp only [orgIds, List.map_cons, List.nodup_cons] at hN
      obtain ⟨hnotin, hNr⟩ := hN
      rcases List.mem_cons.mp hm with he | hm2
      · subst he
        simp [findById, hid]
      · have hne : o.id ≠ i := by
          intro hcontra
          apply hnotin
          rw [hcontra, ← hid]
          exact mem_orgIds hm2
        simp only [findById, hne, if_false]
        exact ih hNr hm2 hid

theorem updateFirstById_none_iff (n : Organization) :
    ∀ l : List Organization, updateFirstById n l = none ↔ containsId n.id l = false := by
  intro l
  induction l with
  | nil => simp [updateFirstById, containsId]
  | cons o rest ih =>
      by_cases h : o.id = n.id
      · simp [updateFirstById, containsId, h]
      · simp [updateFirstById, containsId, h, ih]

theorem updateFirstById_some {n : Organization} :
    ∀ {l l2 : List Organization}, updateFirstById n l = some l2 →
    ∃ l1 org l3, l = l1 ++ org :: l3 ∧ org.id = n.id ∧
      (∀ o ∈ l1, o.id ≠ n.id) ∧ l2 = l1 ++ mergeRecord org n :: l3 := by
  intro l
  induction l with
  | nil => intro l2 h; simp [updateFirstById] at h
  | cons o rest ih =>
      intro l2 h
      by_cases ho : o.id = n.id
      · simp only [updateFirstById, ho, if_true] at h
        refine ⟨[], o, rest, by simp, ho, by simp, ?_⟩
        simp only [List.nil_append]
        exact (Option.some.inj h).symm
      · simp only [updateFirstById, ho, if_false] at h
        rw [Option.map_eq_some'] at h
        obtain ⟨rec2, hrec2, hl2⟩ := h
        obtain ⟨l1, org, l3, hsplit, hid, hfirst, heq⟩ := ih hrec2
        refine ⟨o :: l1, org, l3, by rw [hsplit]; rfl, hid, ?_, ?_⟩
        · intro x hx
          rcases List.mem_cons.mp hx with hxo | hx1
          · subst hxo; exact ho
          · exact hfirst x hx1
        · rw [hl2.symm, heq]
          rfl

theorem mergeClosed_cons_new (e : List Organization) (n : Organization)
    (rest : List Organization)
    (hnotinE : n.id ∉ orgIds e) (hnotinR : n.id ∉ orgIds rest) :
    mergeClosed (e ++ [freshRecord n]) rest = mergeClosed e (n :: rest) := by
  unfold mergeClosed
  have h1 : (e ++ [freshRecord n]).map (fun org =>
      match findById org.id rest with
      | some m => mergeRecord org m
      | none => org) =
      e.map (fun org =>
        match findById org.id rest with
        | some m => mergeRecord org m
        | none => org) ++ [freshRecord n] := by
    rw [List.map_append]
    congr 1
    have hf : findById (freshRecord n).id rest = none := by
      have hfr : (freshRecord n).id = n.id := rfl
      rw [hfr]
      exact (findById_eq_none_iff _ _).mpr hnotinR
    simp [hf]
  have h2 : e.map (fun org =>
      match findById org.id (n :: rest) with
      | some m => mergeRecord org m
      | none => org) =
      e.map (fun org =>
        match findById org.id rest with
        | some m => mergeRecord org m
        | none => org) := by
    apply List.map_congr_left
    intro org hm
    have hne : n.id ≠ org.id := fun hcontra => hnotinE (hcontra ▸ mem_orgIds hm)
    simp [findById, hne]
  have h3 : (n :: rest).filter (fun m => !(containsId m.id e)) =
      n :: rest.filter (fun m => !(containsId m.id e)) := by
    have hc : containsId n.id e = false := (containsId_false_iff _ _).mpr hnotinE
    simp [List.filter_cons, hc]
  have h4 : rest.filter (fun m => !(containsId m.id (e ++ [freshRecord n]))) =
      rest.filter (fun m => !(containsId m.id e)) := by
    apply List.filter_congr
    intro m hm
    have hne : n.id ≠ m.id := fun hcontra => hnotinR (hcontra ▸ mem_orgIds hm)
    rw [containsId_append]
    have hone : containsId m.id [freshRecord n] = false := by
      simp [containsId, freshRecord, hne]
    rw [hone, Bool.or_false]
  rw [h1, h2, h3, h4]
  simp [List.append_assoc]

theorem mergeClosed_cons_update (l1 l3 : List Organization) (org n : Organization)
    (rest : List Organization)
    (hNe : (orgIds (l1 ++ org :: l3)).Nodup)
    (hid : org.id = n.id)
    (hnotinR : n.id ∉ orgIds rest) :
    mergeClosed (l1 ++ mergeRecord org n :: l3) rest =
      mergeClosed (l1 ++ org :: l3) (n :: rest) := by
  have hids : orgIds (l1 ++ org :: l3) = orgIds l1 ++ org.id :: orgIds l3 := by
    simp [orgIds]
  have hN : (orgIds l1 ++ org.id :: orgIds l3).Nodup := by rw [← hids]; exact hNe
  have hmid := List.nodup_middle.mp hN
  rw [List.nodup_cons] at hmid
  obtain ⟨hout, _⟩ := hmid
  have hnot1 : org.id ∉ orgIds l1 := fun h => hout (List.mem_append_left _ h)
  have hnot3 : org.id ∉ orgIds l3 := fun h => hout (List.mem_append_right _ h)
  unfold mergeClosed
  have hmaps : ∀ o : Organization, o.id ≠ n.id →
      (match findById o.id (n :: rest) with
       | some m => mergeRecord o m
       | none => o) =
      (match findById o.id rest with
       | some m => mergeRecord o m
       | none => o) := by
    intro o hne
    have hno : n.id ≠ o.id := fun hcontra => hne hcontra.symm
    simp [findById, hno]
  have h1 : l1.map (fun o =>
      match findById o.id (n :: rest) with
      | some m => mergeRecord o m
      | none => o) =
      l1.map (fun o =>
        match findById o.id rest with
        | some m => mergeRecord o m
        | none => o) := by
    apply List.map_congr_left
    intro o hm
    exact hmaps o (fun hcontra => hnot1 (by rw [hid, ← hcontra]; exact mem_orgIds hm))
  have h3 : l3.map (fun o =>
      match findById o.id (n :: rest) with
      | some m => mergeRecord o m
      | none => o) =
      l3.map (fun o =>
        match findById o.id rest with
        | some m => mergeRecord o m
        | none => o) := by
    apply List.map_congr_left
    intro o hm
    exact hmaps o (fun hcontra => hnot3 (by rw [hid, ← hcontra]; exact mem_orgIds hm))
  have hmidL : (match findById (mergeRecord org n).id rest with
      | some m => mergeRecord (mergeRecord org n) m
      | none => mergeRecord org n) = mergeRecord org n := by
    have hfr : (mergeRecord org n).id = n.id := rfl
    have hf : findById (mergeRecord org n).id rest = none := by
      rw [hfr]
      exact (findById_eq_none_iff _ _).mpr hnotinR
    simp [hf]
  have hmidR : (match findById org.id (n :: rest) with
      | some m => mergeRecord org m
      | none => org) = mergeRecord org n := by
    have hno : n.id = org.id := hid.symm
    simp [findById, hno]
  have hfiltR : (n :: rest).filter (fun m => !(containsId m.id (l1 ++ org :: l3))) =
      rest.filter (fun m => !(containsId m.id (l1 ++ org :: l3))) := by
    have hc : containsId n.id (l1 ++ org :: l3) = true := by
      rw [containsId_append]
      have : containsId n.id (org :: l3) = true := by
        simp [containsId, hid]
      rw [this, Bool.or_true]
    simp [List.filter_cons, hc]
  have hfiltL : rest.filter (fun m => !(containsId m.id (l1 ++ mergeRecord org n :: l3))) =
      rest.filter (fun m => !(containsId m.id (l1 ++ org :: l3))) := by
    apply List.filter_congr
    intro m hm
    have hids2 : orgIds (l1 ++ mergeRecord org n :: l3) = orgIds (l1 ++ org :: l3) := by
      simp [orgIds, mergeRecord, hid]
    rw [containsId_congr_ids m.id hids2]
  rw [List.map_append, List.map_append, List.map_cons, List.map_cons,
    h1, h3, hmidL, hmidR, hfiltR, hfiltL]

theorem mergeOrganizations_closed :
    ∀ (newOrgs existing : List Organization),
      (orgIds existing).Nodup → (orgIds newOrgs).Nodup →
      mergeOrganizations existing newOrgs = mergeClosed existing newOrgs := by
  intro newOrgs
  induction newOrgs with
  | nil =>
      intro e _ _
      simp [mergeOrganizations, mergeClosed, findById]
  | cons n rest ih =>
      intro e hNe hNi
      have hNi2 : (n.id ∉ orgIds rest) ∧ (orgIds rest).Nodup := by
        simp only [orgIds, List.map_cons, List.nodup_cons] at hNi
        exact hNi
      obtain ⟨hnotinR, hNr⟩ := hNi2
      have hfold : mergeOrganizations e (n :: rest) =
          mergeOrganizations (mergeStep e n) rest := rfl
      rw [hfold]
      cases hu : updateFirstById n e with
      | none =>
          have hnotinE : n.id ∉ orgIds e :=
            (containsId_false_iff _ _).mp ((updateFirstById_none_iff n e).mp hu)
          have hstep : mergeStep e n = e ++ [freshRecord n] := by
            simp [mergeStep, hu]
          rw [hstep]
          have hNe2 : (orgIds (e ++ [freshRecord n])).Nodup := by
            have hideq : orgIds (e ++ [freshRecord n]) = orgIds e ++ [n.id] := by
              simp [orgIds, freshRecord]
            rw [hideq, List.nodup_append]
            refine ⟨hNe, List.nodup_singleton _, ?_⟩
            intro a ha hb
            simp at hb
            subst hb
            exact hnotinE ha
          rw [ih (e ++ [freshRecord n]) hNe2 hNr]
          exact mergeClosed_cons_new e n rest hnotinE hnotinR
      | some e2 =>
          obtain ⟨l1, org, l3, hsplit, hid, hfirst, heq⟩ := updateFirstById_some hu
          have hstep : mergeStep e n = e2 := by simp [mergeStep, hu]
          rw [hstep, heq]
          subst hsplit
          have hids2 : orgIds (l1 ++ mergeRecord org n :: l3) =
              orgIds (l1 ++ org :: l3) := by
            simp [orgIds, mergeRecord, hid]
          have hNe2 : (orgIds (l1 ++ mergeRecord org n :: l3)).Nodup := by
            rw [hids2]; exact hNe
          rw [ih _ hNe2 hNr]
          exact mergeClosed_cons_update l1 l3 org n rest hNe hid hnotinR

theorem findById_perm (i : String) {l l2 : List Organization}
    (hN : (orgIds l).Nodup) (h : l.Perm l2) :
    findById i l = findById i l2 := by
  cases hf : findById i l with
  | none =>
      have hni : i ∉ orgIds l := (findById_eq_none_iff _ _).mp hf
      have hni2 : i ∉ orgIds l2 := by
        intro hcon
        exact hni (((h.map Organization.id).mem_iff).mpr hcon)
      exact ((findById_eq_none_iff _ _).mpr hni2).symm
  | some n =>
      obtain ⟨hmem, hid⟩ := findById_spec hf
      have hN2 : (orgIds l2).Nodup := (h.map Organization.id).nodup hN
      exact (findById_eq_some hN2 (h.mem_iff.mp hmem) hid).symm

theorem mergeClosed_perm (e : List Organization) {inc inc2 : List Organization}
    (hNi : (orgIds inc).Nodup) (hp : inc.Perm inc2) :
    (mergeClosed e inc).Perm (mergeClosed e inc2) := by
  unfold mergeClosed
  apply List.Perm.append
  · have heq : e.map (fun org =>
        match findById org.id inc with
        | some m => mergeRecord org m
        | none => org) =
        e.map (fun org =>
          match findById org.id inc2 with
          | some m => mergeRecord org m
          | none => org) := by
      apply List.map_congr_left
      intro org _
      rw [findById_perm org.id hNi hp]
    rw [heq]
  · exact (hp.filter _).map _

theorem findById_append_left {i : String} : ∀ {l1 : List Organization}
    (l2 : List Organization) {x : Organization},
    findById i l1 = some x → findById i (l1 ++ l2) = some x := by
  intro l1
  induction l1 with
  | nil => intro l2 x h; simp [findById] at h
  | cons o rest ih =>
      intro l2 x h
      by_cases ho : o.id = i
      · simp [findById, ho] at h ⊢
        exact h
      · simp only [List.cons_append, findById, ho, if_false] at h ⊢
        exact ih l2 h

theorem findById_map_self (e : List Organization) (F : Organization → Organization)
    (hFid : ∀ o, (F o).id = o.id) (org : Organization)
    (hN : (orgIds e).Nodup) (hm : org ∈ e) :
    findById org.id (e.map F) = some (F org) := by
  have hids : orgIds (e.map F) = orgIds e := by
    simp only [orgIds, List.map_map]
    apply List.map_congr_left
    intro o _
    exact hFid o
  apply findById_eq_some
  · rw [hids]; exact hN
  · exact List.mem_map_of_mem F hm
  · exact hFid org

/-- Counterexample to claim C7 as stated: `mergeOrganizations` is not
invariant under permutation of the incoming list. Two fresh incoming
records are appended in incoming order, so permuting them permutes the
result; the two results here are different lists. -/
theorem mergeOrganizations_order_counterexample :
    ([⟨"a", "A", "r", none, none, none⟩, ⟨"b", "B", "r", none, none, none⟩] :
        List Organization).Perm
      [⟨"b", "B", "r", none, none, none⟩, ⟨"a", "A", "r", none, none, none⟩] ∧
    mergeOrganizations []
        [⟨"a", "A", "r", none, none, none⟩, ⟨"b", "B", "r", none, none, none⟩] ≠
      mergeOrganizations []
        [⟨"b", "B", "r", none, none, none⟩, ⟨"a", "A", "r", none, none, none⟩] :=
  ⟨by decide, by decide⟩

/-- Claim C7 (amended): `mergeOrganizations` is a pure function, and for an
incoming list with pairwise-distinct ids the result is the same up to
ordering (a permutation) for any permutation of the incoming list — as a
plain list the appended fresh records follow incoming order, and with
duplicate incoming ids even the record contents depend on the order. In
particular merging `[A, B]` with `[B2, C]` (`B2` sharing the id of `B`)
yields, in either incoming order, the identical three-record list whose id
set is exactly `{A.id, B.id, C.id}`, with `A` unchanged in first position. -/
theorem mergeOrganizations_perm_invariance :
    (∀ (existing newOrgs newOrgs2 : List Organization),
      (orgIds existing).Nodup → (orgIds newOrgs).Nodup → newOrgs.Perm newOrgs2 →
      (mergeOrganizations existing newOrgs).Perm
        (mergeOrganizations existing newOrgs2)) ∧
    (∀ A B B2 C : Organization,
      B2.id = B.id → A.id ≠ B.id → A.id ≠ C.id → B.id ≠ C.id →
      mergeOrganizations [A, B] [B2, C] = [A, mergeRecord B B2, freshRecord C] ∧
      mergeOrganizations [A, B] [C, B2] = [A, mergeRecord B B2, freshRecord C] ∧
      orgIds (mergeOrganizations [A, B] [B2, C]) = [A.id, B.id, C.id]) := by
  constructor
  · intro e inc inc2 hNe hNi hp
    have hNi2 : (orgIds inc2).Nodup := (hp.map Organization.id).nodup hNi
    rw [mergeOrganizations_closed inc e hNe hNi,
      mergeOrganizations_closed inc2 e hNe hNi2]
    exact mergeClosed_perm e hNi hp
  · intro A B B2 C hB2 hAB hAC hBC
    have h1 : mergeOrganizations [A, B] [B2, C] =
        [A, mergeRecord B B2, freshRecord C] := by
      simp [mergeOrganizations, mergeStep, updateFirstById, mergeRecord,
        freshRecord, hB2, hAB, hAC, hBC]
    have h2 : mergeOrganizations [A, B] [C, B2] =
        [A, mergeRecord B B2, freshRecord C] := by
      simp [mergeOrganizations, mergeStep, updateFirstById, mergeRecord,
        freshRecord, hB2, hAB, hAC, hBC]
    refine ⟨h1, h2, ?_⟩
    rw [h1]
    simp [orgIds, mergeRecord, freshRecord, hB2]

/-- Witness for claim C7: a concrete merge of `[A, B]` with `[B2, C]` in
both incoming orders, and a concrete permutation instance of the general
part. -/
theorem mergeOrganizations_perm_invariance_witness :
    (mergeOrganizations
        [⟨"a", "A", "eu", none, none, none⟩]
        [⟨"b", "B", "us", none, none, none⟩, ⟨"c", "C", "us", none, none, none⟩]).Perm
      (mergeOrganizations
        [⟨"a", "A", "eu", none, none, none⟩]
        [⟨"c", "C", "us", none, none, none⟩, ⟨"b", "B", "us", none, none, none⟩]) ∧
    mergeOrganizations
        [⟨"a", "A", "eu", none, none, none⟩,
         ⟨"b", "B", "eu", some "custom", some ["pg"], some 3⟩]
        [⟨"b", "B2", "us", none, none, none⟩, ⟨"c", "C", "us", none, none, none⟩] =
      [⟨"a", "A", "eu", none, none, none⟩,
       mergeRecord ⟨"b", "B", "eu", some "custom", some ["pg"], some 3⟩
         ⟨"b", "B2", "us", none, none, none⟩,
       freshRecord ⟨"c", "C", "us", none, none, none⟩] ∧
    orgIds (mergeOrganizations
        [⟨"a", "A", "eu", none, none, none⟩,
         ⟨"b", "B", "eu", some "custom", some ["pg"], some 3⟩]
        [⟨"b", "B2", "us", none, none, none⟩, ⟨"c", "C", "us", none, none, none⟩]) =
      ["a", "b", "c"] := by
  refine ⟨?_, ?_, ?_⟩
  · exact mergeOrganizations_perm_invariance.1
      [⟨"a", "A", "eu", none, none, none⟩]
      [⟨"b", "B", "us", none, none, none⟩, ⟨"c", "C", "us", none, none, none⟩]
      [⟨"c", "C", "us", none, none, none⟩, ⟨"b", "B", "us", none, none, none⟩]
      (by decide) (by decide) (by decide)
  · exact (mergeOrganizations_perm_invariance.2
      ⟨"a", "A", "eu", none, none, none⟩
      ⟨"b", "B", "eu", some "custom", some ["pg"], some 3⟩
      ⟨"b", "B2", "us", none, none, none⟩
      ⟨"c", "C", "us", none, none, none⟩
      (by decide) (by decide) (by decide) (by decide)).1
  · exact (mergeOrganizations_perm_invariance.2
      ⟨"a", "A", "eu", none, none, none⟩
      ⟨"b", "B", "eu", some "custom", some ["pg"], some 3⟩
      ⟨"b", "B2", "us", none, none, none⟩
      ⟨"c", "C", "us", none, none, none⟩
      (by decide) (by decide) (by decide) (by decide)).2.2

/-- Counterexample to claim C6 as stated: the merged record does not adopt
all non-customName, non-productGroup fields from the incoming record — the
`lastSubsiteUpdate` bookkeeping field is also carried over from the
existing record (`some 5` here) instead of the incoming value (`none`). -/
theorem merge_customizations_counterexample :
    mergeOrganizations
        [⟨"o1", "Old", "eu", some "My Custom", some ["pg1"], some 5⟩]
        [⟨"o1", "New", "us", none, none, none⟩] =
      [⟨"o1", "New", "us", some "My Custom", some ["pg1"], some 5⟩] ∧
    ¬ ((mergeOrganizations
        [⟨"o1", "Old", "eu", some "My Custom", some ["pg1"], some 5⟩]
        [⟨"o1", "New", "us", none, none, none⟩]).map
          Organization.lastSubsiteUpdate =
      [(⟨"o1", "New", "us", none, none, none⟩ : Organization).lastSubsiteUpdate]) :=
  ⟨by decide, by decide⟩

/-- Claim C6 (amended): for duplicate-free inputs, the record produced for a
matched id carries the incoming record's plain fields (id, name, region)
while retaining from the existing record the user-set custom name, the
nested product-group collection (normalized to `some []` when the existing
record has none, and kept even when the incoming record carries its own),
and the `lastSubsiteUpdate` bookkeeping field. -/
theorem merge_preserves_customizations (existing newOrgs : List Organization)
    (org n : Organization)
    (hNe : (orgIds existing).Nodup) (hNi : (orgIds newOrgs).Nodup)
    (horg : org ∈ existing) (hn : n ∈ newOrgs) (hid : org.id = n.id) :
    findById org.id (mergeOrganizations existing newOrgs) =
      some { n with customName := org.customName,
                    productGroups := some (org.productGroups.getD []),
                    lastSubsiteUpdate := org.lastSubsiteUpdate } := by
  rw [mergeOrganizations_closed newOrgs existing hNe hNi]
  unfold mergeClosed
  have hFid : ∀ o : Organization, ((fun org2 : Organization =>
      match findById org2.id newOrgs with
      | some m => mergeRecord org2 m
      | none => org2) o).id = o.id := by
    intro o
    cases hf : findById o.id newOrgs with
    | none => simp [hf]
    | some m =>
        have hmid := (findById_spec hf).2
        simp [hf, mergeRecord, hmid]
  have h1 := findById_map_self existing _ hFid org hNe horg
  have h2 := findById_append_left
    ((newOrgs.filter (fun m => !(containsId m.id existing))).map freshRecord) h1
  rw [h2]
  have hfind : findById org.id newOrgs = some n := findById_eq_some hNi hn hid.symm
  simp only [hfind]
  rfl

/-- Witness for claim C6: an existing record with a custom name, product
groups and a `lastSubsiteUpdate` merged with an incoming record (which even
carries its own product groups) keeps all three and adopts the incoming
name and region. -/
theorem merge_preserves_customizations_witness :
    findById "o1" (mergeOrganizations
        [⟨"o1", "Old", "eu", some "My Custom", some ["pg1"], some 5⟩]
        [⟨"o1", "New", "us", none, some ["x"], none⟩]) =
      some ⟨"o1", "New", "us", some "My Custom", some ["pg1"], some 5⟩ :=
  merge_preserves_customizations
    [⟨"o1", "Old", "eu", some "My Custom", some ["pg1"], some 5⟩]
    [⟨"o1", "New", "us", none, some ["x"], none⟩]
    ⟨"o1", "Old", "eu", some "My Custom", some ["pg1"], some 5⟩
    ⟨"o1", "New", "us", none, some ["x"], none⟩
    (by decide) (by decide) (by decide) (by decide) rfl
